import Mathlib

/-!
Verification development for the fal.ai agentic-workflow repository.

The definitions below are shallow embeddings of the repository's Python
code:

* `parse_image_paths` / `parse_video_paths` embed the extractor
  functions of `src/core/utils.py` (a regex `findall` over the pattern
  `(?:/|https?://)[^ \t..]+\.(?:ext1|...)`, deduplication via
  `dict.fromkeys`, then a filter keeping http(s) candidates and local
  candidates that exist on disk).  The filesystem is modelled as the
  list `fs` of existing paths.
* `smolagentParseImagePaths` / `smolagentParseVideoPaths` embed the
  corresponding methods of `src/agents/smolagent.py`, which return the
  raw regex matches.
* The regex engine (`matchAt`, `findallAux`, ...) implements Python
  `re.findall` semantics for exactly those patterns: scan left to
  right, at each position try the ordered alternation `/ | https?://`,
  then a greedy backtracking `[^ \t..]+`, then a literal dot and the
  ordered extension alternation; on a match continue after it,
  otherwise advance one character.
-/

set_option autoImplicit false

namespace MHWorkflow

/-- Python ASCII whitespace characters, the relevant fragment of the
regex class `\s` and of `str.strip` (all inputs occurring in the
repository are ASCII). -/
def isPySpace (c : Char) : Bool :=
  c = ' ' || c = '\t' || c = '\n' || c = '\r' || c = '\x0b' || c = '\x0c'

/-- Python `str.strip` on the character list. -/
def pyStripList (l : List Char) : List Char :=
  ((l.dropWhile isPySpace).reverse.dropWhile isPySpace).reverse

/-- Python `str.strip`. -/
def pyStrip (s : String) : String :=
  String.mk (pyStripList s.toList)

/-- Python `sep.join(list)`. -/
def pyJoin (sep : String) : List String → String
  | [] => ""
  | [x] => x
  | x :: y :: xs => x ++ sep ++ pyJoin sep (y :: xs)

/-- Matcher for the literal regex fragment `\.(?:e1|e2|...)`: a dot
followed by the first extension alternative (in order) that matches.
Returns the number of characters consumed. -/
def matchDotExt (exts : List (List Char)) (cs : List Char) : Option Nat :=
  match cs with
  | [] => none
  | c :: rest =>
    if c = '.' then
      match exts.find? (fun e => e.isPrefixOf rest) with
      | some e => some (e.length + 1)
      | none => none
    else none

/-- Backtracking loop of the greedy `[^ \t..]+` followed by
`\.(?:...)`: try to let the character class consume `k` characters,
from longest to shortest (down to 1), and take the first split after
which the dot-extension part matches. -/
def findGreedy (exts : List (List Char)) (cs : List Char) : Nat → Option Nat
  | 0 => none
  | k + 1 =>
    match matchDotExt exts (cs.drop (k + 1)) with
    | some m => some ((k + 1) + m)
    | none => findGreedy exts cs k

/-- Match `[^ \t..]+\.(?:...)` at the start of `cs`: the character
class can consume at most the maximal non-whitespace run. -/
def matchBodyAt (exts : List (List Char)) (cs : List Char) : Option Nat :=
  findGreedy exts cs (cs.takeWhile (fun c => !isPySpace c)).length

/-- Match the prefix alternation `https?://` at the start of `cs`
(literal `http`, greedy optional `s`, literal `://`). -/
def matchHttpAt (cs : List Char) : Option Nat :=
  if ('h' :: 't' :: 't' :: 'p' :: []).isPrefixOf cs then
    if (cs.drop 4).take 1 = ['s'] then
      if (':' :: '/' :: '/' :: []).isPrefixOf (cs.drop 5) then some 8 else none
    else
      if (':' :: '/' :: '/' :: []).isPrefixOf (cs.drop 4) then some 7 else none
  else none

/-- Match the whole pattern `(?:/|https?://)[^ \t..]+\.(?:...)` (or,
when `ah` is false, `/[^ \t..]+\.(?:...)`) at the start of `cs`.  The
ordered alternation tries `/` first; when the first character is `/`
the second alternative `https?://` can never match at the same
position, so no further backtracking over the alternation is needed. -/
def matchAt (ah : Bool) (exts : List (List Char)) (cs : List Char) : Option Nat :=
  match cs with
  | [] => none
  | c :: rest =>
    if c = '/' then (matchBodyAt exts rest).map (fun bl => 1 + bl)
    else if ah then
      match matchHttpAt (c :: rest) with
      | some pl => (matchBodyAt exts ((c :: rest).drop pl)).map (fun bl => pl + bl)
      | none => none
    else none

/-- Fuelled scanner of `re.findall`: at each position try `matchAt`;
on success record the match and continue after it, otherwise advance
one character.  The fuel is an upper bound on the string length. -/
def findallAuxF (ah : Bool) (exts : List (List Char)) : Nat → List Char → List (List Char)
  | 0, _ => []
  | _, [] => []
  | fuel + 1, c :: rest =>
    match matchAt ah exts (c :: rest) with
    | some len => ((c :: rest).take len) :: findallAuxF ah exts fuel (rest.drop (len - 1))
    | none => findallAuxF ah exts fuel rest

/-- `re.findall` over a character list. -/
def findallAux (ah : Bool) (exts : List (List Char)) (l : List Char) : List (List Char) :=
  findallAuxF ah exts l.length l

/-- `re.findall(pattern, text)` for the media-path patterns, returning
the matched substrings. -/
def reFindall (ah : Bool) (exts : List (List Char)) (text : String) : List String :=
  (findallAux ah exts text.toList).map (fun cs => String.mk cs)

/-- Extension alternation `png|jpg|jpeg|webp` of `utils.parse_image_paths`. -/
def imageExts : List (List Char) :=
  [['p', 'n', 'g'], ['j', 'p', 'g'], ['j', 'p', 'e', 'g'], ['w', 'e', 'b', 'p']]

/-- Extension alternation `mp4|mov|avi|webm` of `parse_video_paths`. -/
def videoExts : List (List Char) :=
  [['m', 'p', '4'], ['m', 'o', 'v'], ['a', 'v', 'i'], ['w', 'e', 'b', 'm']]

/-- Extension alternation `png|jpg|jpeg` of `SmolagentFalApp.parse_image_paths`. -/
def smolImageExts : List (List Char) :=
  [['p', 'n', 'g'], ['j', 'p', 'g'], ['j', 'p', 'e', 'g']]

/-- Fuelled version of `list(dict.fromkeys(l))`: keep the first
occurrence of each element, drop later duplicates. -/
def dedupFirstF : Nat → List String → List String
  | 0, _ => []
  | _, [] => []
  | fuel + 1, x :: xs => x :: dedupFirstF fuel (xs.filter (fun y => decide (y ≠ x)))

/-- Python `list(dict.fromkeys(l))`. -/
def dedupFirst (l : List String) : List String :=
  dedupFirstF l.length l

/-- Python `path.startswith(("http://", "https://"))`. -/
def pyStartsWithHttp (s : String) : Bool :=
  "http://".toList.isPrefixOf s.toList || "https://".toList.isPrefixOf s.toList

/-- `utils.parse_image_paths(text)`; `fs` models the set of paths for
which `os.path.exists` is true. -/
def parse_image_paths (fs : List String) (text : String) : List String :=
  let ms := reFindall true imageExts text
  let uniqueMatches := dedupFirst ms
  uniqueMatches.filter (fun p => pyStartsWithHttp p || decide (p ∈ fs))

/-- `utils.parse_video_paths(text)`. -/
def parse_video_paths (fs : List String) (text : String) : List String :=
  let ms := reFindall true videoExts text
  let uniqueMatches := dedupFirst ms
  uniqueMatches.filter (fun p => pyStartsWithHttp p || decide (p ∈ fs))

/-- `SmolagentFalApp.parse_image_paths` (src/agents/smolagent.py):
raw `re.findall` matches of `(/[^ \t..]+\.(?:png|jpg|jpeg))`, no
deduplication and no filesystem check. -/
def smolagentParseImagePaths (text : String) : List String :=
  reFindall false smolImageExts text

/-- `SmolagentFalApp.parse_video_paths` (src/agents/smolagent.py). -/
def smolagentParseVideoPaths (text : String) : List String :=
  reFindall false videoExts text

/-!
Tool adapters (src/tools/fal_tools.py).  Each `forward` method is a
`try` block around calls into `fal_client` / `requests`; any exception
raised inside the block is caught and turned into an error string.  We
model the outcome of the external calls as an `Except String _`
oracle argument (`Except.error e` means some call raised an exception
whose `str` is `e`; `Except.ok` carries the downloaded local paths).
The Lean functions are total, which reflects that `forward` itself
never propagates an exception; the result is `Option String` because
the Python functions can fall off the end and return `None`.
-/

/-- Success string of `FalImageGenerationTool.forward`:
`f"Generated {len(image_paths)} image(s): {', '.join(image_paths)}"`. -/
def imageGenStatus (imagePaths : List String) : String :=
  "Generated " ++ toString imagePaths.length ++ " image(s): " ++ pyJoin ", " imagePaths

/-- Success string of `FalVideoGenerationTool.forward`:
`f"Generated video saved to: {temp_file.name}"`. -/
def videoGenStatus (path : String) : String :=
  "Generated video saved to: " ++ path

/-- Success string of `FalImageEditTool.forward`:
`f"Edited image saved to: {temp_file.name}"`. -/
def imageEditStatus (path : String) : String :=
  "Edited image saved to: " ++ path

/-- Branch condition of `FalImageGenerationTool.forward`:
`mode=="fast" or model=="flux-schnell" or model=="flux_krea" or model=="flux-krea"`. -/
def imageGenFastBranch (mode model : String) : Bool :=
  mode == "fast" || model == "flux-schnell" || model == "flux_krea" || model == "flux-krea"

/-- `FalImageGenerationTool.forward`.  `fastOutcome` is the outcome of
the fast branch (Prodia request, `Image.open`, temp-file save; `ok`
carries the saved temp path); `proOutcome` is the outcome of the
`fal_client.submit` branch (`ok` carries the list of saved temp paths,
one per downloaded image; a result without an `"images"` key yields
`ok []`).  Every exception is caught by the surrounding `try`. -/
def falImageGenerationForward (mode model : String)
    (fastOutcome : Except String String)
    (proOutcome : Except String (List String)) : Option String :=
  if imageGenFastBranch mode model then
    match fastOutcome with
    | .ok path => some (imageGenStatus [path])
    | .error e => some ("Error generating images: " ++ e)
  else
    match proOutcome with
    | .ok paths => some (imageGenStatus paths)
    | .error e => some ("Error generating images: " ++ e)

/-- `FalVideoGenerationTool.forward`.  `ok (some path)` models a
result with a `"video"` url downloaded to `path`; `ok none` models a
result without a `"video"` key, for which the Python function falls
off the end and returns `None`. -/
def falVideoGenerationForward (outcome : Except String (Option String)) : Option String :=
  match outcome with
  | .ok (some path) => some (videoGenStatus path)
  | .ok none => none
  | .error e => some ("Error generating video: " ++ e)

/-- `FalImageEditTool.forward`.  `ok (some path)` models a result with
a non-empty `"images"` list whose first url was downloaded to `path`;
`ok none` models a missing/empty `"images"` list (falls off the end,
returns `None`). -/
def falImageEditForward (outcome : Except String (Option String)) : Option String :=
  match outcome with
  | .ok (some path) => some (imageEditStatus path)
  | .ok none => none
  | .error e => some ("Error editing image: " ++ e)

/-- Arguments dict submitted by the pro branch of
`FalImageGenerationTool.forward` (`{"prompt": ..., "image_size":
{"width": ..., "height": ...}, "num_images": num_images}`). -/
structure FalImageGenArgs where
  prompt : String
  width : Int
  height : Int
  numImages : Int
deriving DecidableEq

/-- The arguments actually submitted to `fal_client.submit` by the
image-generation adapter: `none` in the fast branch (which posts a
Prodia job and ignores `num_images`), otherwise the args dict with
`num_images` taken verbatim from the input. -/
def imageGenSubmittedArgs (prompt : String) (width height numImages : Int)
    (mode model : String) : Option FalImageGenArgs :=
  if imageGenFastBranch mode model then none
  else some { prompt := prompt, width := width, height := height, numImages := numImages }

/-- Arguments dict of `FalVideoGenerationTool.forward`
(`{"prompt": ..., "duration": min(max(duration, 6), 6), "resolution": "720p"}`). -/
structure FalVideoGenArgs where
  prompt : String
  duration : Int
  resolution : String
deriving DecidableEq

/-- A submitted video-generation request: the model identifier passed
to `fal_client.submit` together with the arguments dict. -/
structure FalVideoRequest where
  modelId : String
  args : FalVideoGenArgs
deriving DecidableEq

/-- Request built by `FalVideoGenerationTool.forward`: the `model` and
`mode` parameters appear only in a debug print; `model_id` is the
hard-coded seedance identifier and the duration is
`min(max(duration, 6), 6)`. -/
def videoGenRequest (prompt model mode : String) (duration : Int) : FalVideoRequest :=
  { modelId := "fal-ai/bytedance/seedance/v1/pro/fast/text-to-video",
    args := { prompt := prompt, duration := min (max duration 6) 6, resolution := "720p" } }

/-!
Chat history model.  A Gradio message is a dict with optional
`"role"` and `"content"` keys; the content is a plain string, a dict
(`{"path": ...}` for the media messages this application constructs,
`{"text": ...}` for text parts), or a list of such parts.
-/

/-- Python value stored under the `"content"` key of a chat message. -/
inductive PyContent where
  | str (s : String)
  | mediaDict (path : String)
  | textDict (t : String)
  | listOf (items : List PyContent)

mutual

/-- Python `repr` of a content value (used by `str()` on dicts and
lists; `str` of a dict is its repr). -/
def pyReprOfContent : PyContent → String
  | .str s => "\x27" ++ s ++ "\x27"
  | .mediaDict p => "\x7b\x27path\x27: \x27" ++ p ++ "\x27\x7d"
  | .textDict t => "\x7b\x27text\x27: \x27" ++ t ++ "\x27\x7d"
  | .listOf items => "[" ++ pyJoin ", " (pyReprList items) ++ "]"

/-- Python `repr` of each element of a content list. -/
def pyReprList : List PyContent → List String
  | [] => []
  | c :: cs => pyReprOfContent c :: pyReprList cs

end

/-- Python `str()` of a content value (`str` on a string is the string
itself, on dicts/lists it is the repr). -/
def pyStrOfContent : PyContent → String
  | .str s => s
  | c => pyReprOfContent c

/-- One chat-history entry; `none` fields model missing dict keys
(read with `msg.get("role", "unknown")` / `msg.get("content", "")`). -/
structure Turn where
  role : Option String
  content : Option PyContent

/-- Python `str.capitalize`: first character upper-cased, the rest
lower-cased. -/
def pyCapitalize (s : String) : String :=
  match s.toList with
  | [] => ""
  | c :: cs => String.mk (c.toUpper :: cs.map Char.toLower)

/-- The `"text"` parts extracted from a list content:
`[c.get("text", "") for c in content if isinstance(c, dict) and "text" in c]`. -/
def listTextParts (items : List PyContent) : List String :=
  items.filterMap (fun c => match c with | .textDict t => some t | _ => none)

/-- Text rendered for one prior turn's content by
`SmolagentFalApp._build_context_from_history` (src/agents/smolagent.py):
a dict becomes `content.get("text", str(content))` — so a media dict
is stringified, not skipped — and a list becomes its joined text parts
(or `str(content)` when there are none). -/
def contentTextSmol : PyContent → String
  | .str s => s
  | .mediaDict p => pyStrOfContent (.mediaDict p)
  | .textDict t => t
  | .listOf items =>
    let parts := listTextParts items
    if parts.isEmpty then pyStrOfContent (.listOf items)
    else pyJoin " " parts

/-- The window `history[-5:-1]` of prior turns used by
`_build_context_from_history` when `len(history) > 1`. -/
def recentWindow (history : List Turn) : List Turn :=
  (history.take (history.length - 1)).drop (history.length - 5)

/-- Rendering `f"{role.capitalize()}: {content}"` of one prior turn. -/
def renderTurnSmol (t : Turn) : String :=
  pyCapitalize (t.role.getD "unknown") ++ ": " ++ contentTextSmol (t.content.getD (.str ""))

/-- `SmolagentFalApp._build_context_from_history` (src/agents/smolagent.py). -/
def buildContextFromHistory (history : List Turn) : String :=
  let recent := if history.length > 1 then recentWindow history else []
  let parts1 := if recent.isEmpty then [] else "Previous conversation:" :: recent.map renderTurnSmol
  let currentMsg := match history.getLast? with
    | some t => t.content.getD (.str "")
    | none => .str ""
  pyJoin "\n" (parts1 ++ ["\nCurrent request: " ++ pyStrOfContent currentMsg])

/-- Rendering of one prior turn by the reference builder
`SmolagentFalApp._build_context_from_history` (src/agents/smolagent_ref.py):
dict content (media) is skipped with `continue`; list content is
reduced to its joined text parts and skipped when blank; string
content is skipped when blank. -/
def refRenderTurn (t : Turn) : Option String :=
  let role := t.role.getD "unknown"
  match t.content.getD (.str "") with
  | .str s => if pyStrip s = "" then none else some (pyCapitalize role ++ ": " ++ s)
  | .mediaDict _ => none
  | .textDict _ => none
  | .listOf items =>
    let s := if (listTextParts items).isEmpty then "" else pyJoin " " (listTextParts items)
    if pyStrip s = "" then none else some (pyCapitalize role ++ ": " ++ s)

/-- `SmolagentFalApp._build_context_from_history` of
src/agents/smolagent_ref.py: iterates over all of `history` when
`len(history) > 1`, skipping media turns entirely; the current
request line is appended only for non-blank string content. -/
def refBuildContextFromHistory (history : List Turn) : String :=
  let recent := if history.length > 1 then history else []
  let parts1 := if recent.isEmpty then [] else "Previous conversation:" :: recent.filterMap refRenderTurn
  let current := match history.getLast? with
    | some t => t.content.getD (.str "")
    | none => .str ""
  let parts2 := match current with
    | .str s => if pyStrip s = "" then parts1 else parts1 ++ ["\nCurrent request: " ++ s]
    | _ => parts1
  pyJoin "\n" parts2

/-!
`stream_agent_response` (src/agents/smolagent.py, lines 107-322).  The
worker closure `run_agent` captures any exception into the
`agent_error` cell instead of letting it cross the thread boundary;
after the polling loop exits and `agent_thread.join()` returns, the
captured error is re-raised, and the outer `try` of the generator
converts it into a single assistant message appended to the history.
The sequential embedding keeps the program order join-then-reraise;
the timing-dependent final content of the progress bubble is the
oracle `pollContent`, and the tool outputs collected from the agent's
memory steps are the oracle `toolOutputs`.
-/

/-- The `run_agent` worker closure: returns the
`(agent_output, agent_error)` cells.  It is a total function of the
run outcome — an exception is stored, never propagated. -/
def runAgentWorker (outcome : Except String String) : Option String × Option String :=
  match outcome with
  | .ok o => (some o, none)
  | .error e => (none, some e)

/-- Helper building a history entry `{"role": role, "content": c}`. -/
def mkTurn (role : String) (c : PyContent) : Turn :=
  { role := some role, content := some c }

/-- Final history state yielded by `stream_agent_response` for a given
worker outcome.  On success the thinking bubble's content is replaced
by the first parsed image (else first video, else the text answer);
on error the outer `except` appends one assistant message
`f"❌ Error: {str(e)}\n\nPlease try rephrasing your request."`. -/
def streamAgentResponseFinal (history0 : List Turn) (userMessage : String)
    (workerOutcome : Except String String) (pollContent : String)
    (toolOutputs : List String) : List Turn :=
  let h := history0 ++ [mkTurn "user" (.str userMessage), mkTurn "assistant" (.str pollContent)]
  let w := runAgentWorker workerOutcome
  match w.2 with
  | some e =>
    h ++ [mkTurn "assistant" (.str ("❌ Error: " ++ e ++ "\n\nPlease try rephrasing your request."))]
  | none =>
    let agentOutput := w.1.getD ""
    let combined := if toolOutputs.isEmpty then agentOutput else pyJoin "\n" toolOutputs
    let imagePaths := smolagentParseImagePaths combined
    let videoPaths := smolagentParseVideoPaths combined
    let newLast : PyContent :=
      match imagePaths with
      | ip :: _ => .mediaDict ip
      | [] =>
        match videoPaths with
        | vp :: _ => .mediaDict vp
        | [] => .str ("**Agent Response:**\n\n" ++ agentOutput)
    history0 ++ [mkTurn "user" (.str userMessage), mkTurn "assistant" newLast]

/-!
Final rendering portion of `stream_from_smolagent`
(src/core/utils.py, lines 158-196): parse the agent output for media,
yield a text turn only when the stripped output is non-empty and
either there is no media or the text is longer than 200 characters,
then one turn per image (mime `image/png`), one per video (mime
`video/mp4`), and a fallback `Task completed.` when nothing at all
was produced.
-/

/-- A chat message yielded by the response renderer. -/
inductive RenderedTurn where
  | text (content : String)
  | media (path : String) (mime : String)
deriving DecidableEq

/-- The sequence of messages yielded by the final rendering portion of
`stream_from_smolagent` for agent output `out`. -/
def streamFinalTurns (fs : List String) (out : String) : List RenderedTurn :=
  let imagePaths := parse_image_paths fs out
  let videoPaths := parse_video_paths fs out
  let outputText := pyStrip out
  let textTurns : List RenderedTurn :=
    if outputText ≠ "" ∧ ((imagePaths = [] ∧ videoPaths = []) ∨ outputText.length > 200)
    then [RenderedTurn.text outputText] else []
  let doneTurns : List RenderedTurn :=
    if imagePaths = [] ∧ videoPaths = [] ∧ outputText = ""
    then [RenderedTurn.text "Task completed."] else []
  textTurns ++ imagePaths.map (fun p => RenderedTurn.media p "image/png")
    ++ videoPaths.map (fun p => RenderedTurn.media p "video/mp4") ++ doneTurns

/-!
Auxiliary notions used in theorem statements.
-/

/-- Index of the first occurrence of `a` in `l` (length of `l` when
absent); used to state first-seen-order preservation. -/
def firstIdx (a : String) : List String → Nat
  | [] => 0
  | x :: xs => if x = a then 0 else firstIdx a xs + 1

/-- Substring test on character lists. -/
def containsSub (needle : List Char) : List Char → Bool
  | [] => needle.isEmpty
  | c :: rest => needle.isPrefixOf (c :: rest) || containsSub needle rest

/-- Substring test (Python `needle in hay`). -/
def pyContains (hay needle : String) : Bool :=
  containsSub needle.toList hay.toList

/-- Character-list form of `pyJoin ", "`, used to reason about the
adapter status strings. -/
def sepJoinChars : List (List Char) → List Char
  | [] => []
  | [p] => p
  | p :: q :: ps => p ++ ',' :: ' ' :: sepJoinChars (q :: ps)

/-- Shape of the local temp paths produced by
`tempfile.NamedTemporaryFile(suffix=".png")` (resp. `".mp4"`): an
absolute path `/<body>.<e1><e2><e3>` with a non-empty body and no
whitespace anywhere. -/
def IsWfMediaPath (e1 e2 e3 : Char) (p : String) : Prop :=
  ∃ body, p.toList = '/' :: body ++ ['.', e1, e2, e3] ∧ body ≠ [] ∧
    ∀ c ∈ p.toList, isPySpace c = false

/-- The 4-exchange history of spec scenario D, followed by the pending
current request: turns 2 and 3 are media turns. -/
def mediaHistory : List Turn :=
  [mkTurn "user" (.str "one"),
   mkTurn "assistant" (.mediaDict "/a.png"),
   mkTurn "assistant" (.mediaDict "/b.mp4"),
   mkTurn "user" (.str "four"),
   mkTurn "user" (.str "current")]

/-- A 209-character agent output consisting of a single image path and
nothing else. -/
def longImagePath : String :=
  "/tmp/" ++ String.mk (List.replicate 200 'a') ++ ".png"

/-!
Theorems.
-/

/-- Helper: `FalImageGenerationTool.forward` always returns a string,
whatever the branch and the outcome of the external calls. -/
theorem imageGenForward_isSome (mode model : String)
    (fo : Except String String) (po : Except String (List String)) :
    (falImageGenerationForward mode model fo po).isSome = true := by
  unfold falImageGenerationForward
  split
  · cases fo <;> rfl
  · cases po <;> rfl

/-- C1 counterexample: when the video API call itself succeeds but the
result has no `"video"` key, `FalVideoGenerationTool.forward` returns
`None`, not a string; and the edit tool's failure string starts with
`Error editing image:`, not `Error generating`. -/
theorem C1_counterexample :
    falVideoGenerationForward (Except.ok none) = none
  ∧ falImageEditForward (Except.error "boom") = some "Error editing image: boom"
  ∧ "Error generating".toList.isPrefixOf "Error editing image: boom".toList = false := by
  exact ⟨rfl, rfl, by decide⟩

/-- C1 (amended): no `forward` ever raises — each is a total function
of the modelled call outcome; an exception from the backing client is
converted into a string prefixed `Error generating images:` /
`Error generating video:` / `Error editing image:`; the
image-generation tool always returns a string, while the video/edit
tools return `None` exactly when the successful API result lacks the
`"video"` / `"images"` payload. -/
theorem C1_adapter_error_handling (mode model : String)
    (fo : Except String String) (po : Except String (List String))
    (vo eo : Except String (Option String)) (e : String) :
    (falImageGenerationForward mode model fo po).isSome = true
  ∧ falImageGenerationForward mode model (Except.error e) (Except.error e)
      = some ("Error generating images: " ++ e)
  ∧ falVideoGenerationForward (Except.error e) = some ("Error generating video: " ++ e)
  ∧ falImageEditForward (Except.error e) = some ("Error editing image: " ++ e)
  ∧ (falVideoGenerationForward vo = none ↔ vo = Except.ok none)
  ∧ (falImageEditForward eo = none ↔ eo = Except.ok none) := by
  refine ⟨imageGenForward_isSome mode model fo po, ?_, rfl, rfl, ?_, ?_⟩
  · unfold falImageGenerationForward
    split <;> rfl
  · rcases vo with e | o
    · simp [falVideoGenerationForward]
    · cases o <;> simp [falVideoGenerationForward]
  · rcases eo with e | o
    · simp [falImageEditForward]
    · cases o <;> simp [falImageEditForward]

/-- C5 counterexample: the context builder of src/agents/smolagent.py
does not skip media turns; on the 4-exchange history with media turns
2 and 3 the built context contains the stringified dict dumps. -/
theorem C5_counterexample :
    pyContains (buildContextFromHistory mediaHistory) "\x7b\x27path\x27: \x27/a.png\x27\x7d" = true
  ∧ buildContextFromHistory mediaHistory =
      "Previous conversation:\nUser: one\nAssistant: \x7b\x27path\x27: \x27/a.png\x27\x7d\nAssistant: \x7b\x27path\x27: \x27/b.mp4\x27\x7d\nUser: four\n\nCurrent request: current" := by
  exact ⟨by decide, by decide⟩

/-- C5 (amended): the builder of src/agents/smolagent_ref.py skips
every media (dict-content) turn entirely — such a turn renders to
nothing — and on the 4-exchange history with media turns 2 and 3 its
output contains text only from the text turns; the builder of
src/agents/smolagent.py instead embeds `str(dict)` dumps (see the
counterexample). -/
theorem C5_ref_builder_skips_media :
    (∀ (r : Option String) (p : String),
      refRenderTurn { role := r, content := some (PyContent.mediaDict p) } = none)
  ∧ refBuildContextFromHistory mediaHistory =
      "Previous conversation:\nUser: one\nUser: four\nUser: current\n\nCurrent request: current" := by
  exact ⟨fun r p => rfl, by decide⟩

/-- C6 counterexample: `num_images = 999` is submitted verbatim by the
pro branch of `FalImageGenerationTool.forward`; it is not clamped
into `[1, 4]`. -/
theorem C6_counterexample :
    (imageGenSubmittedArgs "p" 720 720 999 "pro" "seedream4").map FalImageGenArgs.numImages
      = some 999
  ∧ ¬ (999 : Int) ≤ 4 := by
  exact ⟨by decide, by decide⟩

/-- C6 (amended): the image-generation adapter performs no clamping of
`num_images`: the pro branch submits the value verbatim and the fast
branch ignores it (no request args carry it); the adapter proceeds
without raising for every value because all failures of the backing
calls are caught and stringified. -/
theorem C6_num_images_unclamped (prompt : String) (w h n : Int) (mode model : String)
    (fo : Except String String) (po : Except String (List String)) :
    (imageGenSubmittedArgs prompt w h n mode model).map FalImageGenArgs.numImages
      = (if imageGenFastBranch mode model then none else some n)
  ∧ (falImageGenerationForward mode model fo po).isSome = true := by
  refine ⟨?_, imageGenForward_isSome mode model fo po⟩
  unfold imageGenSubmittedArgs
  split <;> simp_all

/-- C7: the worker closure of `stream_agent_response` captures any
exception into the `agent_error` cell instead of propagating it; the
captured error is re-raised only in the post-join continuation, where
the generator's outer `except` turns it into exactly one appended
assistant message ending in the please-rephrase instruction — the
generator itself is a total function of the outcome and yields history
states rather than raising. -/
theorem C7_worker_error_surfaced (history0 : List Turn) (u e pollContent : String)
    (toolOutputs : List String) :
    runAgentWorker (Except.error e) = (none, some e)
  ∧ streamAgentResponseFinal history0 u (Except.error e) pollContent toolOutputs
      = history0 ++
          [mkTurn "user" (.str u), mkTurn "assistant" (.str pollContent),
           mkTurn "assistant"
             (.str ("❌ Error: " ++ e ++ "\n\nPlease try rephrasing your request."))] := by
  refine ⟨rfl, ?_⟩
  simp [streamAgentResponseFinal, runAgentWorker]

/-- C9: the video-generation adapter submits the hard-coded seedance
model identifier with duration `min(max(duration, 6), 6) = 6`; the
`duration`, `model` and `mode` arguments have no effect on the
submitted request. -/
theorem C9_video_request_fixed (prompt model mode : String) (duration : Int)
    (model2 mode2 : String) (duration2 : Int) :
    videoGenRequest prompt model mode duration = videoGenRequest prompt model2 mode2 duration2
  ∧ (videoGenRequest prompt model mode duration).args.duration = 6
  ∧ (videoGenRequest prompt model mode duration).modelId
      = "fal-ai/bytedance/seedance/v1/pro/fast/text-to-video" := by
  have hd : ∀ d : Int, min (max d 6) 6 = 6 := fun d => by omega
  refine ⟨?_, ?_, rfl⟩
  · simp [videoGenRequest, FalVideoRequest.mk.injEq, FalVideoGenArgs.mk.injEq, hd]
  · simp [videoGenRequest, hd]

/-- C10: for histories with more than one entry, the built context is
a function of the window `history[-5:-1]` and of the last entry only;
two histories agreeing there produce identical context strings, so
text from any earlier turn never enters the output. -/
theorem C10_context_window_only (h h2 : List Turn)
    (hl : h.length > 1) (hl2 : h2.length > 1)
    (hw : recentWindow h = recentWindow h2)
    (hlast : h.getLast? = h2.getLast?) :
    buildContextFromHistory h = buildContextFromHistory h2 := by
  unfold buildContextFromHistory
  rw [if_pos hl, if_pos hl2, hw, hlast]

/-- C10 witness: two length-7 histories differing in their first turn
yield the same context. -/
theorem C10_context_window_only_witness :
    buildContextFromHistory
        (mkTurn "user" (.str "a0") ::
          [mkTurn "user" (.str "t1"), mkTurn "assistant" (.str "t2"),
           mkTurn "user" (.str "t3"), mkTurn "assistant" (.str "t4"),
           mkTurn "user" (.str "t5"), mkTurn "user" (.str "t6")])
      = buildContextFromHistory
        (mkTurn "assistant" (.str "b0") ::
          [mkTurn "user" (.str "t1"), mkTurn "assistant" (.str "t2"),
           mkTurn "user" (.str "t3"), mkTurn "assistant" (.str "t4"),
           mkTurn "user" (.str "t5"), mkTurn "user" (.str "t6")]) := by
  apply C10_context_window_only
  · decide
  · decide
  · rfl
  · rfl

/-- Helper: the fuel argument of `dedupFirstF` is irrelevant as long
as it bounds the list length. -/
theorem dedupFirstF_fuel (f1 : Nat) : ∀ (f2 : Nat) (l : List String),
    l.length ≤ f1 → l.length ≤ f2 → dedupFirstF f1 l = dedupFirstF f2 l := by
  induction f1 with
  | zero =>
    intro f2 l h1 _
    have : l = [] := List.eq_nil_of_length_eq_zero (Nat.le_zero.mp h1)
    subst this
    cases f2 <;> rfl
  | succ f ih =>
    intro f2 l h1 h2
    cases l with
    | nil => cases f2 <;> rfl
    | cons x xs =>
      cases f2 with
      | zero => simp at h2
      | succ f2' =>
        simp only [dedupFirstF]
        have hx1 : xs.length ≤ f := by simp [List.length_cons] at h1; omega
        have hx2 : xs.length ≤ f2' := by simp [List.length_cons] at h2; omega
        have hf := List.length_filter_le (fun y => decide (y ≠ x)) xs
        exact congrArg _ (ih _ _ (le_trans hf hx1) (le_trans hf hx2))

/-- Helper: unfolding equation of `dedupFirst` on a cons cell. -/
theorem dedupFirst_cons (x : String) (xs : List String) :
    dedupFirst (x :: xs) = x :: dedupFirst (xs.filter (fun y => decide (y ≠ x))) := by
  unfold dedupFirst
  simp only [List.length_cons, dedupFirstF]
  exact congrArg _ (dedupFirstF_fuel _ _ _
    (le_trans (List.length_filter_le _ _) (Nat.le_refl _)) (Nat.le_refl _))

/-- Helper: `dedupFirstF` only returns elements of its input. -/
theorem mem_dedupFirstF (f : Nat) : ∀ (l : List String) (a : String),
    a ∈ dedupFirstF f l → a ∈ l := by
  induction f with
  | zero => intro l a h; simp [dedupFirstF] at h
  | succ f ih =>
    intro l a h
    cases l with
    | nil => simp [dedupFirstF] at h
    | cons x xs =>
      simp only [dedupFirstF, List.mem_cons] at h
      rcases h with rfl | h
      · exact List.mem_cons_self _ _
      · exact List.mem_cons_of_mem _ (List.mem_of_mem_filter (ih _ _ h))

/-- Helper: the first-seen deduplication returns a duplicate-free
list. -/
theorem dedupFirstF_nodup (f : Nat) : ∀ (l : List String), (dedupFirstF f l).Nodup := by
  induction f with
  | zero => intro l; simp [dedupFirstF]
  | succ f ih =>
    intro l
    cases l with
    | nil => simp [dedupFirstF]
    | cons x xs =>
      simp only [dedupFirstF]
      refine List.nodup_cons.mpr ⟨?_, ih _⟩
      intro hmem
      have := List.mem_filter.mp (mem_dedupFirstF _ _ _ hmem)
      simp at this

theorem dedupFirst_nodup (l : List String) : (dedupFirst l).Nodup :=
  dedupFirstF_nodup _ _

/-- Helper: `firstIdx` over a cons cell with matching head. -/
theorem firstIdx_cons_self (a : String) (l : List String) : firstIdx a (a :: l) = 0 := by
  simp [firstIdx]

/-- Helper: `firstIdx` over a cons cell with distinct head. -/
theorem firstIdx_cons_ne (x a : String) (l : List String) (h : x ≠ a) :
    firstIdx a (x :: l) = firstIdx a l + 1 := by
  simp [firstIdx, h]

/-- Helper: the order of first occurrences is preserved when passing
from a filtered list back to the original list. -/
theorem firstIdx_filter_lt (p : String → Bool) (a b : String)
    (ha : p a = true) (hb : p b = true) :
    ∀ l : List String, firstIdx a (l.filter p) < firstIdx b (l.filter p) →
      firstIdx a l < firstIdx b l := by
  intro l
  induction l with
  | nil => intro h; simpa [firstIdx] using h
  | cons c t ih =>
    intro h
    by_cases hpc : p c = true
    · rw [List.filter_cons_of_pos hpc] at h
      by_cases hca : c = a
      · subst hca
        rw [firstIdx_cons_self] at *
        have hcb : c ≠ b := by
          intro hcb
          subst hcb
          simp [firstIdx_cons_self] at h
        rw [firstIdx_cons_ne _ _ _ hcb]
        omega
      · by_cases hcb : c = b
        · subst hcb
          rw [firstIdx_cons_self] at h
          simp [firstIdx_cons_ne _ _ _ hca] at h
        · rw [firstIdx_cons_ne _ _ _ hca, firstIdx_cons_ne _ _ _ hcb] at h
          rw [firstIdx_cons_ne _ _ _ hca, firstIdx_cons_ne _ _ _ hcb]
          exact Nat.succ_lt_succ (ih (Nat.lt_of_succ_lt_succ h))
    · have hpc' : p c = false := Bool.eq_false_iff.mpr hpc
      have hca : c ≠ a := by intro hh; subst hh; rw [ha] at hpc'; cases hpc'
      have hcb : c ≠ b := by intro hh; subst hh; rw [hb] at hpc'; cases hpc'
      rw [List.filter_cons_of_neg (by simp [hpc'])] at h
      rw [firstIdx_cons_ne _ _ _ hca, firstIdx_cons_ne _ _ _ hcb]
      exact Nat.succ_lt_succ (ih h)

/-- Helper: the deduplicated list is ordered by first occurrence in
the input list. -/
theorem dedupFirstF_pairwise (f : Nat) : ∀ l : List String,
    (dedupFirstF f l).Pairwise (fun a b => firstIdx a l < firstIdx b l) := by
  induction f with
  | zero => intro l; simp [dedupFirstF]
  | succ f ih =>
    intro l
    cases l with
    | nil => simp [dedupFirstF]
    | cons x xs =>
      simp only [dedupFirstF]
      refine List.pairwise_cons.mpr ⟨?_, ?_⟩
      · intro b hb
        have hbf := List.mem_filter.mp (mem_dedupFirstF _ _ _ hb)
        have hbx : x ≠ b := by
          intro hh
          subst hh
          simp at hbf
        rw [firstIdx_cons_self, firstIdx_cons_ne _ _ _ hbx]
        omega
      · have hp := ih (xs.filter (fun y => decide (y ≠ x)))
        refine List.Pairwise.imp_of_mem ?_ hp
        intro a b hma hmb hab
        have haf := List.mem_filter.mp (mem_dedupFirstF _ _ _ hma)
        have hbf := List.mem_filter.mp (mem_dedupFirstF _ _ _ hmb)
        have hxa : x ≠ a := by intro hh; subst hh; simp at haf
        have hxb : x ≠ b := by intro hh; subst hh; simp at hbf
        rw [firstIdx_cons_ne _ _ _ hxa, firstIdx_cons_ne _ _ _ hxb]
        have := firstIdx_filter_lt (fun y => decide (y ≠ x)) a b
          (by simpa using haf.2) (by simpa using hbf.2) xs hab
        omega

theorem dedupFirst_pairwise (l : List String) :
    (dedupFirst l).Pairwise (fun a b => firstIdx a l < firstIdx b l) :=
  dedupFirstF_pairwise _ _

/-- C2 counterexample: the extractor of src/agents/smolagent.py keeps
duplicates — it is the raw `re.findall` list. -/
theorem C2_counterexample :
    smolagentParseImagePaths "/a.png /a.png" = ["/a.png", "/a.png"]
  ∧ ¬ (smolagentParseImagePaths "/a.png /a.png").Nodup := by
  exact ⟨by decide, by decide⟩

/-- C2 (amended): the utils.py extractors return duplicate-free lists
whose elements are ordered by the first occurrence of the match in the
scanned text (the `re.findall` list enumerates matches left to
right); the smolagent.py extractors return the raw match lists, which
can contain duplicates (see the counterexample). -/
theorem C2_utils_extractors_dedup (fs : List String) (text : String) :
    (parse_image_paths fs text).Nodup
  ∧ (parse_image_paths fs text).Pairwise
      (fun a b => firstIdx a (reFindall true imageExts text)
        < firstIdx b (reFindall true imageExts text))
  ∧ (parse_video_paths fs text).Nodup
  ∧ (parse_video_paths fs text).Pairwise
      (fun a b => firstIdx a (reFindall true videoExts text)
        < firstIdx b (reFindall true videoExts text)) := by
  refine ⟨?_, ?_, ?_, ?_⟩
  · exact (dedupFirst_nodup _).filter _
  · exact (dedupFirst_pairwise _).filter _
  · exact (dedupFirst_nodup _).filter _
  · exact (dedupFirst_pairwise _).filter _

/-- C3 counterexample: the smolagent.py extractor takes no filesystem
into account — `/ghost.png` is returned although it is a non-http
candidate and (for the modelled empty filesystem) does not exist. -/
theorem C3_counterexample :
    smolagentParseImagePaths "/ghost.png" = ["/ghost.png"]
  ∧ pyStartsWithHttp "/ghost.png" = false
  ∧ "/ghost.png" ∉ ([] : List String) := by
  exact ⟨by decide, by decide, by decide⟩

/-- C3 (amended): the utils.py extractors include a non-http candidate
only when it exists on the modelled filesystem, and include every
deduplicated http(s) candidate unconditionally; the smolagent.py
extractors perform no existence check at all (see the
counterexample). -/
theorem C3_utils_existence_filter (fs : List String) (text : String) :
    (∀ p ∈ parse_image_paths fs text, pyStartsWithHttp p = false → p ∈ fs)
  ∧ (∀ m ∈ dedupFirst (reFindall true imageExts text),
      pyStartsWithHttp m = true → m ∈ parse_image_paths fs text)
  ∧ (∀ p ∈ parse_video_paths fs text, pyStartsWithHttp p = false → p ∈ fs)
  ∧ (∀ m ∈ dedupFirst (reFindall true videoExts text),
      pyStartsWithHttp m = true → m ∈ parse_video_paths fs text) := by
  refine ⟨?_, ?_, ?_, ?_⟩ <;> intro p hp hhttp
  · have := (List.mem_filter.mp hp).2
    rw [hhttp] at this
    simpa using this
  · exact List.mem_filter.mpr ⟨hp, by rw [hhttp]; rfl⟩
  · have := (List.mem_filter.mp hp).2
    rw [hhttp] at this
    simpa using this
  · exact List.mem_filter.mpr ⟨hp, by rw [hhttp]; rfl⟩

/-- C3 witness: on `fs = ["/a.png"]` and a text containing the
existing local path and an http URL, the amended properties hold at
the concrete members. -/
theorem C3_utils_existence_filter_witness :
    "/a.png" ∈ (["/a.png"] : List String)
  ∧ "http://x.com/b.png" ∈ parse_image_paths ["/a.png"] "/a.png see http://x.com/b.png" := by
  constructor
  · exact (C3_utils_existence_filter ["/a.png"] "/a.png see http://x.com/b.png").1
      "/a.png" (by decide) (by decide)
  · exact (C3_utils_existence_filter ["/a.png"] "/a.png see http://x.com/b.png").2.1
      "http://x.com/b.png" (by decide) (by decide)

/-- Helper: the head of a non-empty `dropWhile` result fails the
predicate. -/
theorem dropWhile_head_false (p : Char → Bool) : ∀ (l : List Char) (c : Char) (t : List Char),
    l.dropWhile p = c :: t → p c = false := by
  intro l
  induction l with
  | nil => intro c t h; simp [List.dropWhile] at h
  | cons a l' ih =>
    intro c t h
    rw [List.dropWhile_cons] at h
    split at h
    · exact ih _ _ h
    · rename_i hpa
      cases h
      exact Bool.eq_false_iff.mpr hpa

/-- Helper: a non-empty stripped string is not made of whitespace
only. -/
theorem pyStrip_not_all_space (s : String) (h : pyStrip s ≠ "") :
    (pyStrip s).toList.all isPySpace = false := by
  have hres : (pyStrip s).toList = pyStripList s.toList := rfl
  rcases hB : (s.toList.dropWhile isPySpace).reverse.dropWhile isPySpace with _ | ⟨c, t⟩
  · exfalso
    apply h
    show String.mk (pyStripList s.toList) = ""
    unfold pyStripList
    rw [hB]
    rfl
  · have hc : isPySpace c = false := dropWhile_head_false _ _ _ _ hB
    have hcmem : c ∈ (pyStrip s).toList := by
      rw [hres]
      unfold pyStripList
      rw [hB]
      exact List.mem_reverse.mpr (List.mem_cons_self _ _)
    rcases hall : (pyStrip s).toList.all isPySpace with _ | _
    · rfl
    · exact absurd (List.all_eq_true.mp hall c hcmem) (by simp [hc])

set_option maxRecDepth 20000 in
/-- C8 counterexample: a 209-character agent output that is one
existing image path and nothing else still produces a leading text
turn (the `len(output_text) > 200` branch), so the claimed
"zero text turns" fails. -/
theorem C8_counterexample :
    (pyStrip longImagePath).length = 209
  ∧ parse_image_paths [longImagePath] longImagePath = [longImagePath]
  ∧ streamFinalTurns [longImagePath] longImagePath
      = [RenderedTurn.text longImagePath, RenderedTurn.media longImagePath "image/png"] := by
  exact ⟨by decide, by decide, by decide⟩

/-- C8 (amended): the final renderer never yields a text turn that is
empty or whitespace-only; and whenever at least one media reference is
extracted and the stripped output is at most 200 characters long, it
yields zero text turns followed by one media turn per extracted image
(mime `image/png`) and then one per extracted video (mime
`video/mp4`); a media-only output longer than 200 characters
additionally gets a leading text turn (see the counterexample). -/
theorem C8_renderer (fs : List String) (out : String) :
    (∀ s, RenderedTurn.text s ∈ streamFinalTurns fs out →
      s ≠ "" ∧ s.toList.all isPySpace = false)
  ∧ (¬ (parse_image_paths fs out = [] ∧ parse_video_paths fs out = []) →
      (pyStrip out).length ≤ 200 →
      streamFinalTurns fs out
        = (parse_image_paths fs out).map (fun p => RenderedTurn.media p "image/png")
          ++ (parse_video_paths fs out).map (fun p => RenderedTurn.media p "video/mp4")) := by
  constructor
  · intro s hs
    unfold streamFinalTurns at hs
    simp only [List.mem_append, List.mem_map] at hs
    rcases hs with ((hs | hs) | hs) | hs
    · split at hs
      · rename_i hcond
        simp only [List.mem_singleton, RenderedTurn.text.injEq] at hs
        subst hs
        exact ⟨hcond.1, pyStrip_not_all_space _ hcond.1⟩
      · simp at hs
    · rcases hs with ⟨p, _, hps⟩
      cases hps
    · rcases hs with ⟨p, _, hps⟩
      cases hps
    · split at hs
      · simp only [List.mem_singleton, RenderedTurn.text.injEq] at hs
        subst hs
        exact ⟨by decide, by decide⟩
      · simp at hs
  · intro hm hlen
    have h1 : ¬ (pyStrip out ≠ "" ∧
        (parse_image_paths fs out = [] ∧ parse_video_paths fs out = []
          ∨ (pyStrip out).length > 200)) := by
      intro hcond
      rcases hcond.2 with hB | hC
      · exact hm hB
      · omega
    have h2 : ¬ (parse_image_paths fs out = [] ∧ parse_video_paths fs out = []
        ∧ pyStrip out = "") := by
      intro hcond
      exact hm ⟨hcond.1, hcond.2.1⟩
    unfold streamFinalTurns
    simp only [if_neg h1, if_neg h2, List.nil_append, List.append_nil]

/-- C8 witness: a short media-only output renders as exactly one media
turn and no text turn. -/
theorem C8_renderer_witness :
    streamFinalTurns ["/tmp/a.png"] "/tmp/a.png"
      = [RenderedTurn.media "/tmp/a.png" "image/png"] := by
  have h := (C8_renderer ["/tmp/a.png"] "/tmp/a.png").2 (by decide) (by decide)
  rw [h]
  decide

/-- Helper: rebuilding a string from its character list. -/
theorem mk_toList : ∀ s : String, String.mk s.toList = s
  | ⟨_⟩ => rfl

/-- Helper: `toList` distributes over string append. -/
theorem toList_append (s t : String) : (s ++ t).toList = s.toList ++ t.toList := by
  cases s
  cases t
  rfl

/-- Helper: `pyJoin ", "` on the character level. -/
theorem pyJoin_comma_toList : ∀ paths : List String,
    (pyJoin ", " paths).toList = sepJoinChars (paths.map String.toList) := by
  intro paths
  induction paths with
  | nil => rfl
  | cons p ps ih =>
    cases ps with
    | nil => rfl
    | cons q ps' =>
      show ((p ++ ", ") ++ pyJoin ", " (q :: ps')).toList = _
      rw [toList_append, toList_append, ih]
      simp [sepJoinChars]

/-- Helper: `takeWhile` keeps a list all of whose elements satisfy the
predicate. -/
theorem takeWhile_all (p : Char → Bool) : ∀ l : List Char,
    (∀ c ∈ l, p c = true) → l.takeWhile p = l := by
  intro l
  induction l with
  | nil => intro _; rfl
  | cons a t ih =>
    intro h
    simp [List.takeWhile_cons, h a (List.mem_cons_self _ _),
      ih (fun c hc => h c (List.mem_cons_of_mem _ hc))]

/-- Helper: `takeWhile` over an append whose left part satisfies the
predicate everywhere. -/
theorem takeWhile_append_all (p : Char → Bool) : ∀ (l r : List Char),
    (∀ c ∈ l, p c = true) → (l ++ r).takeWhile p = l ++ r.takeWhile p := by
  intro l r
  induction l with
  | nil => intro _; rfl
  | cons a t ih =>
    intro h
    simp [List.takeWhile_cons, h a (List.mem_cons_self _ _),
      ih (fun c hc => h c (List.mem_cons_of_mem _ hc))]

/-- Helper: a filter that keeps everything. -/
theorem filter_all_eq (p : String → Bool) : ∀ l : List String,
    (∀ a ∈ l, p a = true) → l.filter p = l := by
  intro l
  induction l with
  | nil => intro _; rfl
  | cons a t ih =>
    intro h
    rw [List.filter_cons_of_pos (h a (List.mem_cons_self _ _))]
    exact congrArg _ (ih (fun c hc => h c (List.mem_cons_of_mem _ hc)))

/-- Helper: `dedupFirst` is the identity on duplicate-free lists. -/
theorem dedupFirst_eq_self : ∀ l : List String, l.Nodup → dedupFirst l = l := by
  intro l
  induction l with
  | nil => intro _; rfl
  | cons x xs ih =>
    intro h
    rw [dedupFirst_cons]
    have hx := (List.nodup_cons.mp h).1
    have hfilter : xs.filter (fun y => decide (y ≠ x)) = xs := by
      apply filter_all_eq
      intro a ha
      exact decide_eq_true (fun hax => hx (hax ▸ ha))
    rw [hfilter]
    exact congrArg _ (ih (List.nodup_cons.mp h).2)

/-- Helper: `Nat.digitChar` on arguments of 16 and above. -/
theorem digitChar_eq_star (d : Nat) (h : 16 ≤ d) : Nat.digitChar d = '*' := by
  have h0 : d ≠ 0 := by omega
  have h1 : d ≠ 1 := by omega
  have h2 : d ≠ 2 := by omega
  have h3 : d ≠ 3 := by omega
  have h4 : d ≠ 4 := by omega
  have h5 : d ≠ 5 := by omega
  have h6 : d ≠ 6 := by omega
  have h7 : d ≠ 7 := by omega
  have h8 : d ≠ 8 := by omega
  have h9 : d ≠ 9 := by omega
  have ha : d ≠ 10 := by omega
  have hb : d ≠ 11 := by omega
  have hc : d ≠ 12 := by omega
  have hd : d ≠ 13 := by omega
  have he : d ≠ 14 := by omega
  have hf : d ≠ 15 := by omega
  simp only [Nat.digitChar, h0, h1, h2, h3, h4, h5, h6, h7, h8, h9, ha, hb, hc, hd, he, hf,
    if_false, ite_false]

/-- Helper: digit characters are never `/`. -/
theorem digitChar_ne_slash (d : Nat) : Nat.digitChar d ≠ '/' := by
  rcases Nat.lt_or_ge d 16 with h | h
  · interval_cases d <;> decide
  · rw [digitChar_eq_star d h]; decide

/-- Helper: digit characters are never `h`. -/
theorem digitChar_ne_h (d : Nat) : Nat.digitChar d ≠ 'h' := by
  rcases Nat.lt_or_ge d 16 with h | h
  · interval_cases d <;> decide
  · rw [digitChar_eq_star d h]; decide

/-- Helper: `Nat.toDigitsCore` only produces digit characters (plus
whatever was in the accumulator), hence never `/` or `h`. -/
theorem toDigitsCore_chars (b : Nat) : ∀ (f n : Nat) (ds : List Char),
    (∀ c ∈ ds, c ≠ '/' ∧ c ≠ 'h') →
    ∀ c ∈ Nat.toDigitsCore b f n ds, c ≠ '/' ∧ c ≠ 'h' := by
  intro f
  induction f with
  | zero => intro n ds h c hc; exact h c hc
  | succ f ih =>
    intro n ds h c hc
    simp only [Nat.toDigitsCore] at hc
    have hcons : ∀ x ∈ Nat.digitChar (n % b) :: ds, x ≠ '/' ∧ x ≠ 'h' := by
      intro x hx
      rcases List.mem_cons.mp hx with rfl | hx
      · exact ⟨digitChar_ne_slash _, digitChar_ne_h _⟩
      · exact h x hx
    split at hc
    · exact hcons c hc
    · exact ih _ _ hcons c hc

/-- Helper: the decimal representation of a natural number contains
neither `/` nor `h`. -/
theorem natRepr_chars (n : Nat) : ∀ c ∈ (toString n).toList, c ≠ '/' ∧ c ≠ 'h' := by
  intro c hc
  have heq : (toString n).toList = Nat.toDigitsCore 10 (n + 1) n [] := rfl
  rw [heq] at hc
  exact toDigitsCore_chars 10 (n + 1) n [] (by intro x hx; cases hx) c hc

/-- Helper: the header of the image-generation status string contains
neither `/` nor `h`. -/
theorem imageHdr_chars (n : Nat) :
    ∀ c ∈ ("Generated " ++ toString n ++ " image(s): ").toList, c ≠ '/' ∧ c ≠ 'h' := by
  intro c hc
  rw [toList_append, toList_append] at hc
  have h1 : ∀ c ∈ "Generated ".toList, c ≠ '/' ∧ c ≠ 'h' := by decide
  have h3 : ∀ c ∈ " image(s): ".toList, c ≠ '/' ∧ c ≠ 'h' := by decide
  rcases List.mem_append.mp hc with hc | hc
  · rcases List.mem_append.mp hc with hc | hc
    · exact h1 c hc
    · exact natRepr_chars n c hc
  · exact h3 c hc

/-- Helper: one failing step of the greedy backtracking loop. -/
theorem findGreedy_succ_none (exts : List (List Char)) (cs : List Char) (k : Nat)
    (h : matchDotExt exts (cs.drop (k + 1)) = none) :
    findGreedy exts cs (k + 1) = findGreedy exts cs k := by
  simp [findGreedy, h]

/-- Helper: one succeeding step of the greedy backtracking loop. -/
theorem findGreedy_succ_some (exts : List (List Char)) (cs : List Char) (k m : Nat)
    (h : matchDotExt exts (cs.drop (k + 1)) = some m) :
    findGreedy exts cs (k + 1) = some ((k + 1) + m) := by
  simp [findGreedy, h]

/-- Helper: the greedy loop passes unchanged through a zone of
positions where the dot-extension part cannot match. -/
theorem findGreedy_zone (exts : List (List Char)) (cs : List Char) (b : Nat) :
    ∀ j, (∀ s, 1 ≤ s → s ≤ j → matchDotExt exts (cs.drop (b + s)) = none) →
    findGreedy exts cs (b + j) = findGreedy exts cs b := by
  intro j
  induction j with
  | zero => intro _; rfl
  | succ j ih =>
    intro h
    have hstep : matchDotExt exts (cs.drop ((b + j) + 1)) = none := by
      have : (b + j) + 1 = b + (j + 1) := by omega
      rw [this]
      exact h (j + 1) (by omega) (le_refl _)
    calc findGreedy exts cs (b + (j + 1))
        = findGreedy exts cs ((b + j) + 1) := rfl
      _ = findGreedy exts cs (b + j) := findGreedy_succ_none _ _ _ hstep
      _ = findGreedy exts cs b := ih (fun s h1 h2 => h s h1 (by omega))

/-- Helper: `matchBodyAt` on a well-formed body followed by a
three-character extension: the greedy loop backtracks from the end of
the non-whitespace run to the final dot and matches exactly
`body ++ "." ++ ext`. -/
theorem matchBodyAt_ext3 (e1 e2 e3 : Char) (exts' : List (List Char)) (body tail : List Char)
    (hb : body ≠ [])
    (hbs : ∀ c ∈ body, isPySpace c = false)
    (hd1 : e1 ≠ '.') (hd2 : e2 ≠ '.') (hd3 : e3 ≠ '.')
    (hs1 : isPySpace e1 = false) (hs2 : isPySpace e2 = false) (hs3 : isPySpace e3 = false)
    (htail : tail = [] ∨ ∃ rest, tail = ',' :: ' ' :: rest) :
    matchBodyAt ([e1, e2, e3] :: exts') (body ++ '.' :: e1 :: e2 :: e3 :: tail)
      = some (body.length + 4) := by
  have hdropb : (body ++ '.' :: e1 :: e2 :: e3 :: tail).drop body.length
      = '.' :: e1 :: e2 :: e3 :: tail := List.drop_left _ _
  have hdrop : ∀ s : Nat, (body ++ '.' :: e1 :: e2 :: e3 :: tail).drop (body.length + s)
      = ('.' :: e1 :: e2 :: e3 :: tail).drop s := by
    intro s
    rw [← List.drop_drop, hdropb]
  have hfind : List.find? (fun e => e.isPrefixOf (e1 :: e2 :: e3 :: tail))
      ([e1, e2, e3] :: exts') = some [e1, e2, e3] :=
    List.find?_cons_of_pos _ (by simp [List.isPrefixOf])
  have hhit : matchDotExt ([e1, e2, e3] :: exts')
      ((body ++ '.' :: e1 :: e2 :: e3 :: tail).drop body.length) = some 4 := by
    rw [hdropb]
    simp [matchDotExt, hfind]
  obtain ⟨b0, body', hbody⟩ : ∃ c t, body = c :: t := by
    cases body with
    | nil => exact absurd rfl hb
    | cons c t => exact ⟨c, t, rfl⟩
  have hbpos : 1 ≤ body.length := by rw [hbody]; simp
  have hhit' : findGreedy ([e1, e2, e3] :: exts') (body ++ '.' :: e1 :: e2 :: e3 :: tail)
      body.length = some (body.length + 4) := by
    rcases Nat.exists_eq_add_of_le hbpos with ⟨k, hk⟩
    rw [hk] at hhit ⊢
    rw [Nat.add_comm 1 k] at hhit ⊢
    exact findGreedy_succ_some _ _ _ _ hhit
  rcases htail with rfl | ⟨rest, rfl⟩
  · have hrun : (body ++ '.' :: e1 :: e2 :: e3 :: ([] : List Char)).takeWhile
        (fun c => !isPySpace c) = body ++ '.' :: e1 :: e2 :: e3 :: [] := by
      apply takeWhile_all
      intro c hc
      rcases List.mem_append.mp hc with hc | hc
      · simp [hbs c hc]
      · simp only [List.mem_cons, List.not_mem_nil, or_false] at hc
        rcases hc with rfl | rfl | rfl | rfl
        · decide
        · simp [hs1]
        · simp [hs2]
        · simp [hs3]
    unfold matchBodyAt
    rw [hrun]
    have hlen : (body ++ '.' :: e1 :: e2 :: e3 :: ([] : List Char)).length
        = body.length + 4 := by simp
    rw [hlen]
    have hzone : ∀ s, 1 ≤ s → s ≤ 4 →
        matchDotExt ([e1, e2, e3] :: exts')
          ((body ++ '.' :: e1 :: e2 :: e3 :: ([] : List Char)).drop (body.length + s)) = none := by
      intro s h1 h4
      rw [hdrop s]
      interval_cases s
      · simp [matchDotExt, hd1]
      · simp [matchDotExt, hd2]
      · simp [matchDotExt, hd3]
      · rfl
    rw [findGreedy_zone _ _ _ 4 hzone]
    exact hhit'
  · have hrun : ((body ++ '.' :: e1 :: e2 :: e3 :: ',' :: ' ' :: rest)).takeWhile
        (fun c => !isPySpace c) = body ++ '.' :: e1 :: e2 :: e3 :: ',' :: [] := by
      have hsplit : body ++ '.' :: e1 :: e2 :: e3 :: ',' :: ' ' :: rest
          = (body ++ '.' :: e1 :: e2 :: e3 :: ',' :: []) ++ (' ' :: rest) := by
        simp
      rw [hsplit]
      rw [takeWhile_append_all]
      · have : (' ' :: rest).takeWhile (fun c => !isPySpace c) = [] := by
          simp [List.takeWhile_cons, isPySpace]
        rw [this, List.append_nil]
      · intro c hc
        rcases List.mem_append.mp hc with hc | hc
        · simp [hbs c hc]
        · simp only [List.mem_cons, List.not_mem_nil, or_false] at hc
          rcases hc with rfl | rfl | rfl | rfl | rfl
          · decide
          · simp [hs1]
          · simp [hs2]
          · simp [hs3]
          · decide
    unfold matchBodyAt
    rw [hrun]
    have hlen : (body ++ '.' :: e1 :: e2 :: e3 :: ',' :: ([] : List Char)).length
        = body.length + 5 := by simp
    rw [hlen]
    have hzone : ∀ s, 1 ≤ s → s ≤ 5 →
        matchDotExt ([e1, e2, e3] :: exts')
          ((body ++ '.' :: e1 :: e2 :: e3 :: ',' :: ' ' :: rest).drop (body.length + s)) = none := by
      intro s h1 h5
      rw [hdrop s]
      interval_cases s
      · simp [matchDotExt, hd1]
      · simp [matchDotExt, hd2]
      · simp [matchDotExt, hd3]
      · simp [matchDotExt]
      · simp [matchDotExt]
    rw [findGreedy_zone _ _ _ 5 hzone]
    exact hhit'

/-- Helper: the full pattern matches a well-formed `/`-path exactly up
to its extension, also when followed by the `", "` separator. -/
theorem matchAt_ext3 (ah : Bool) (e1 e2 e3 : Char) (exts' : List (List Char))
    (body tail : List Char)
    (hb : body ≠ [])
    (hbs : ∀ c ∈ body, isPySpace c = false)
    (hd1 : e1 ≠ '.') (hd2 : e2 ≠ '.') (hd3 : e3 ≠ '.')
    (hs1 : isPySpace e1 = false) (hs2 : isPySpace e2 = false) (hs3 : isPySpace e3 = false)
    (htail : tail = [] ∨ ∃ rest, tail = ',' :: ' ' :: rest) :
    matchAt ah ([e1, e2, e3] :: exts') ('/' :: (body ++ '.' :: e1 :: e2 :: e3 :: tail))
      = some (1 + (body.length + 4)) := by
  simp [matchAt,
    matchBodyAt_ext3 e1 e2 e3 exts' body tail hb hbs hd1 hd2 hd3 hs1 hs2 hs3 htail]

/-- Helper: no match can start at a character that is neither `/` nor
`h`. -/
theorem matchAt_none_of_head (ah : Bool) (exts : List (List Char)) (c : Char)
    (rest : List Char) (h1 : c ≠ '/') (h2 : c ≠ 'h') :
    matchAt ah exts (c :: rest) = none := by
  have hb : ('h' == c) = false := by
    rw [beq_eq_false_iff_ne]
    exact fun hh => h2 hh.symm
  simp [matchAt, h1, matchHttpAt, List.isPrefixOf, hb]

/-- Helper: the fuel of the scanner is irrelevant once it bounds the
input length. -/
theorem findallAuxF_fuel (ah : Bool) (exts : List (List Char)) : ∀ (f1 f2 : Nat) (l : List Char),
    l.length ≤ f1 → l.length ≤ f2 → findallAuxF ah exts f1 l = findallAuxF ah exts f2 l := by
  intro f1
  induction f1 with
  | zero =>
    intro f2 l h1 _
    have : l = [] := List.eq_nil_of_length_eq_zero (Nat.le_zero.mp h1)
    subst this
    cases f2 <;> rfl
  | succ f ih =>
    intro f2 l h1 h2
    cases l with
    | nil => cases f2 <;> rfl
    | cons c rest =>
      cases f2 with
      | zero => simp at h2
      | succ f2' =>
        have hr1 : rest.length ≤ f := by simp [List.length_cons] at h1; omega
        have hr2 : rest.length ≤ f2' := by simp [List.length_cons] at h2; omega
        simp only [findallAuxF]
        cases hm : matchAt ah exts (c :: rest) with
        | none => exact ih _ _ hr1 hr2
        | some len =>
          have hd : (rest.drop (len - 1)).length ≤ rest.length := by
            rw [List.length_drop]
            omega
          exact congrArg _ (ih _ _ (le_trans hd hr1) (le_trans hd hr2))

/-- Helper: scanner step when no match starts at the head. -/
theorem findallAux_cons_none (ah : Bool) (exts : List (List Char)) (c : Char)
    (rest : List Char) (hm : matchAt ah exts (c :: rest) = none) :
    findallAux ah exts (c :: rest) = findallAux ah exts rest := by
  show findallAuxF ah exts (rest.length + 1) (c :: rest) = _
  simp only [findallAuxF, hm]
  rfl

/-- Helper: scanner step when a match of length `len` starts at the
head. -/
theorem findallAux_cons_some (ah : Bool) (exts : List (List Char)) (c : Char)
    (rest : List Char) (len : Nat) (hm : matchAt ah exts (c :: rest) = some len) :
    findallAux ah exts (c :: rest)
      = ((c :: rest).take len) :: findallAux ah exts (rest.drop (len - 1)) := by
  show findallAuxF ah exts (rest.length + 1) (c :: rest) = _
  simp only [findallAuxF, hm]
  refine congrArg _ (findallAuxF_fuel ah exts _ _ _ ?_ (le_refl _))
  rw [List.length_drop]
  omega

/-- Helper: the scanner skips any region free of `/` and `h`. -/
theorem findallAux_skip (ah : Bool) (exts : List (List Char)) : ∀ (pre rest : List Char),
    (∀ c ∈ pre, c ≠ '/' ∧ c ≠ 'h') →
    findallAux ah exts (pre ++ rest) = findallAux ah exts rest := by
  intro pre
  induction pre with
  | nil => intro rest _; rfl
  | cons c t ih =>
    intro rest h
    have hc := h c (List.mem_cons_self _ _)
    rw [List.cons_append,
      findallAux_cons_none ah exts c _ (matchAt_none_of_head ah exts c _ hc.1 hc.2)]
    exact ih rest (fun x hx => h x (List.mem_cons_of_mem _ hx))

/-- Helper: when the whole of `p` matches at the head, the scanner
records `p` and continues after it. -/
theorem findallAux_matched (ah : Bool) (exts : List (List Char)) (p tail : List Char)
    (hp : p ≠ []) (hm : matchAt ah exts (p ++ tail) = some p.length) :
    findallAux ah exts (p ++ tail) = p :: findallAux ah exts tail := by
  obtain ⟨c, t, rfl⟩ := List.exists_cons_of_ne_nil hp
  rw [List.cons_append] at hm ⊢
  rw [findallAux_cons_some ah exts c _ _ hm]
  have htake : (c :: (t ++ tail)).take (c :: t).length = c :: t := by
    rw [← List.cons_append, List.take_left]
  have hdrop : (t ++ tail).drop ((c :: t).length - 1) = tail := by
    have : (c :: t).length - 1 = t.length := by simp
    rw [this, List.drop_left]
  rw [htake, hdrop]

/-- Helper: scanning the `", "`-joined list of well-formed paths
recovers exactly the paths, in order. -/
theorem findallAux_sepJoin (ah : Bool) (e1 e2 e3 : Char) (exts' : List (List Char))
    (hd1 : e1 ≠ '.') (hd2 : e2 ≠ '.') (hd3 : e3 ≠ '.') : ∀ ps : List (List Char),
    (∀ p ∈ ps, ∃ body, p = '/' :: body ++ ['.', e1, e2, e3] ∧ body ≠ [] ∧
      ∀ c ∈ p, isPySpace c = false) →
    findallAux ah ([e1, e2, e3] :: exts') (sepJoinChars ps) = ps := by
  intro ps
  induction ps with
  | nil => intro _; rfl
  | cons p qs ih =>
    intro h
    obtain ⟨body, hp, hbne, hps⟩ := h p (List.mem_cons_self _ _)
    have hs1 : isPySpace e1 = false := hps e1 (by rw [hp]; simp)
    have hs2 : isPySpace e2 = false := hps e2 (by rw [hp]; simp)
    have hs3 : isPySpace e3 = false := hps e3 (by rw [hp]; simp)
    have hbs : ∀ c ∈ body, isPySpace c = false := by
      intro c hc
      exact hps c (by rw [hp]; simp [hc])
    have hplen : p.length = 1 + (body.length + 4) := by
      rw [hp]
      simp
      omega
    have hpne : p ≠ [] := by rw [hp]; simp
    cases qs with
    | nil =>
      show findallAux ah ([e1, e2, e3] :: exts') p = [p]
      have hshape : p ++ ([] : List Char) = '/' :: (body ++ '.' :: e1 :: e2 :: e3 :: []) := by
        rw [List.append_nil, hp]
        simp
      have hm : matchAt ah ([e1, e2, e3] :: exts') (p ++ ([] : List Char)) = some p.length := by
        rw [hshape, hplen]
        exact matchAt_ext3 ah e1 e2 e3 exts' body [] hbne hbs hd1 hd2 hd3 hs1 hs2 hs3 (Or.inl rfl)
      have := findallAux_matched ah ([e1, e2, e3] :: exts') p [] hpne hm
      rw [List.append_nil] at this
      rw [this]
      rfl
    | cons q qs' =>
      show findallAux ah ([e1, e2, e3] :: exts')
          (p ++ ',' :: ' ' :: sepJoinChars (q :: qs')) = p :: q :: qs'
      have hshape : p ++ ',' :: ' ' :: sepJoinChars (q :: qs')
          = '/' :: (body ++ '.' :: e1 :: e2 :: e3 :: (',' :: ' ' :: sepJoinChars (q :: qs'))) := by
        rw [hp]
        simp
      have hm : matchAt ah ([e1, e2, e3] :: exts')
          (p ++ ',' :: ' ' :: sepJoinChars (q :: qs')) = some p.length := by
        rw [hshape, hplen]
        exact matchAt_ext3 ah e1 e2 e3 exts' body _ hbne hbs hd1 hd2 hd3 hs1 hs2 hs3
          (Or.inr ⟨_, rfl⟩)
      rw [findallAux_matched ah ([e1, e2, e3] :: exts') p _ hpne hm]
      rw [show (',' :: ' ' :: sepJoinChars (q :: qs'))
        = [',', ' '] ++ sepJoinChars (q :: qs') from rfl]
      rw [findallAux_skip ah ([e1, e2, e3] :: exts') [',', ' '] _ (by decide)]
      exact congrArg _ (ih (fun x hx => h x (List.mem_cons_of_mem _ hx)))

/-- Helper: `re.findall` on a status string `hdr ++ ", ".join(paths)`
whose header contains neither `/` nor `h` recovers exactly the
well-formed paths. -/
theorem reFindall_status (e1 e2 e3 : Char) (exts' : List (List Char)) (hdr : String)
    (paths : List String)
    (hhdr : ∀ c ∈ hdr.toList, c ≠ '/' ∧ c ≠ 'h')
    (hd1 : e1 ≠ '.') (hd2 : e2 ≠ '.') (hd3 : e3 ≠ '.')
    (hwf : ∀ p ∈ paths, IsWfMediaPath e1 e2 e3 p) :
    reFindall true ([e1, e2, e3] :: exts') (hdr ++ pyJoin ", " paths) = paths := by
  unfold reFindall
  rw [toList_append, pyJoin_comma_toList, findallAux_skip _ _ _ _ hhdr]
  rw [findallAux_sepJoin true e1 e2 e3 exts' hd1 hd2 hd3 (paths.map String.toList) ?hwf]
  case hwf =>
    intro p hp
    rcases List.mem_map.mp hp with ⟨s, hs, rfl⟩
    obtain ⟨body, h1, h2, h3⟩ := hwf s hs
    exact ⟨body, h1, h2, h3⟩
  rw [List.map_map]
  have : (fun cs => String.mk cs) ∘ String.toList = id := by
    funext s
    exact mk_toList s
  rw [this, List.map_id]

/-- Helper: full round trip through dedup and the existence filter for
a status string over well-formed, duplicate-free, on-disk paths. -/
theorem parse_status_filter (e1 e2 e3 : Char) (exts' : List (List Char)) (hdr : String)
    (fs paths : List String)
    (hhdr : ∀ c ∈ hdr.toList, c ≠ '/' ∧ c ≠ 'h')
    (hd1 : e1 ≠ '.') (hd2 : e2 ≠ '.') (hd3 : e3 ≠ '.')
    (hwf : ∀ p ∈ paths, IsWfMediaPath e1 e2 e3 p ∧ p ∈ fs)
    (hnd : paths.Nodup) :
    (dedupFirst (reFindall true ([e1, e2, e3] :: exts') (hdr ++ pyJoin ", " paths))).filter
      (fun p => pyStartsWithHttp p || decide (p ∈ fs)) = paths := by
  rw [reFindall_status e1 e2 e3 exts' hdr paths hhdr hd1 hd2 hd3 (fun p hp => (hwf p hp).1)]
  rw [dedupFirst_eq_self paths hnd]
  apply filter_all_eq
  intro p hp
  have := (hwf p hp).2
  simp [this]

/-- C4 counterexample: a successful video generation returns
`Generated video saved to: <path>`, which is not the claimed counted
format `Generated <n> video(s): <paths>`. -/
theorem C4_counterexample :
    falVideoGenerationForward (Except.ok (some "/tmp/v.mp4"))
      = some (videoGenStatus "/tmp/v.mp4")
  ∧ videoGenStatus "/tmp/v.mp4" ≠ "Generated 1 video(s): /tmp/v.mp4" := by
  exact ⟨rfl, by decide⟩

/-- C4 (amended): on success the adapters return
`Generated <n> image(s): <comma-joined-paths>` (image generation),
`Generated video saved to: <path>` (video generation — not the
counted format the claim states), and `Edited image saved to: <path>`
(edit); applying the matching extractor to each status string, with
the saved temp paths on the modelled filesystem, recovers exactly the
saved paths, verbatim and in order.  The hypotheses state the shape
tempfile-generated paths always have: absolute, whitespace-free,
pairwise distinct, ending in `.png` / `.mp4`. -/
theorem C4_status_roundTrip (fs paths : List String) (vp ep : String)
    (himg : ∀ p ∈ paths, IsWfMediaPath 'p' 'n' 'g' p ∧ p ∈ fs)
    (hnd : paths.Nodup)
    (hv : IsWfMediaPath 'm' 'p' '4' vp ∧ vp ∈ fs)
    (he : IsWfMediaPath 'p' 'n' 'g' ep ∧ ep ∈ fs) :
    falImageGenerationForward "pro" "seedream4" (Except.error "e") (Except.ok paths)
      = some (imageGenStatus paths)
  ∧ parse_image_paths fs (imageGenStatus paths) = paths
  ∧ falVideoGenerationForward (Except.ok (some vp)) = some (videoGenStatus vp)
  ∧ parse_video_paths fs (videoGenStatus vp) = [vp]
  ∧ falImageEditForward (Except.ok (some ep)) = some (imageEditStatus ep)
  ∧ parse_image_paths fs (imageEditStatus ep) = [ep] := by
  refine ⟨by rfl, ?_, rfl, ?_, rfl, ?_⟩
  · unfold parse_image_paths
    rw [show imageGenStatus paths
      = ("Generated " ++ toString paths.length ++ " image(s): ") ++ pyJoin ", " paths from rfl]
    exact parse_status_filter 'p' 'n' 'g' [['j', 'p', 'g'], ['j', 'p', 'e', 'g'],
      ['w', 'e', 'b', 'p']] _ fs paths (imageHdr_chars paths.length)
      (by decide) (by decide) (by decide) himg hnd
  · unfold parse_video_paths
    rw [show videoGenStatus vp = "Generated video saved to: " ++ pyJoin ", " [vp] from rfl]
    exact parse_status_filter 'm' 'p' '4' [['m', 'o', 'v'], ['a', 'v', 'i'],
      ['w', 'e', 'b', 'm']] "Generated video saved to: " fs [vp] (by decide)
      (by decide) (by decide) (by decide)
      (by intro p hp; simp only [List.mem_singleton] at hp; subst hp; exact hv) (by simp)
  · unfold parse_image_paths
    rw [show imageEditStatus ep = "Edited image saved to: " ++ pyJoin ", " [ep] from rfl]
    exact parse_status_filter 'p' 'n' 'g' [['j', 'p', 'g'], ['j', 'p', 'e', 'g'],
      ['w', 'e', 'b', 'p']] "Edited image saved to: " fs [ep] (by decide)
      (by decide) (by decide) (by decide)
      (by intro p hp; simp only [List.mem_singleton] at hp; subst hp; exact he) (by simp)

/-- C4 witness: concrete round trips for two generated images, one
generated video and one edited image. -/
theorem C4_status_roundTrip_witness :
    parse_image_paths ["/tmp/a.png", "/tmp/b.png", "/tmp/v.mp4", "/tmp/e.png"]
        (imageGenStatus ["/tmp/a.png", "/tmp/b.png"]) = ["/tmp/a.png", "/tmp/b.png"]
  ∧ parse_video_paths ["/tmp/a.png", "/tmp/b.png", "/tmp/v.mp4", "/tmp/e.png"]
        (videoGenStatus "/tmp/v.mp4") = ["/tmp/v.mp4"]
  ∧ parse_image_paths ["/tmp/a.png", "/tmp/b.png", "/tmp/v.mp4", "/tmp/e.png"]
        (imageEditStatus "/tmp/e.png") = ["/tmp/e.png"] := by
  have h := C4_status_roundTrip ["/tmp/a.png", "/tmp/b.png", "/tmp/v.mp4", "/tmp/e.png"]
    ["/tmp/a.png", "/tmp/b.png"] "/tmp/v.mp4" "/tmp/e.png"
    ?himg ?hnd ?hv ?he
  case himg =>
    intro p hp
    simp only [List.mem_cons, List.not_mem_nil, or_false] at hp
    rcases hp with rfl | rfl
    · exact ⟨⟨"tmp/a".toList, by decide, by decide, by decide⟩, by decide⟩
    · exact ⟨⟨"tmp/b".toList, by decide, by decide, by decide⟩, by decide⟩
  case hnd => decide
  case hv => exact ⟨⟨"tmp/v".toList, by decide, by decide, by decide⟩, by decide⟩
  case he => exact ⟨⟨"tmp/e".toList, by decide, by decide, by decide⟩, by decide⟩
  exact ⟨h.2.1, h.2.2.2.1, h.2.2.2.2.2⟩

end MHWorkflow
